import Mathlib

/-!
Verification of the sliding-window rate limiter
(ashish-0123/sliding-window-rate-limiter).

The repository has two variants of the same core:
  * `rate-limiter.c`    — single-threaded (`check_tenant_allowed`),
  * `rate-limiter-mt.c` — pthread variant (`check_allowed`), which differs in
    `enqueue` (its non-NULL-queue path appends after `tail` unconditionally,
    with no `size == 0` guard) and in taking/releasing a per-queue mutex.

The embedding below models a per-tenant queue as the list of timestamps held
in the linked chain from `head` to `tail`, together with the separately
maintained `size` field.  An absent queue (`*q == NULL`) is `none`.  `malloc`
outcomes are explicit boolean parameters; the value of an uninitialized
`size` field (left behind when `initialize_queue`'s node allocation fails) is
an explicit parameter `g`.  A NULL-pointer dereference (undefined behavior)
is modelled by returning `none` from the whole operation.  The second
`get_current_time_ms()` call performed inside the admission check when it
enqueues (line 162 of rate-limiter.c, line 163 of rate-limiter-mt.c) is
modelled by the explicit parameter `enq_time`, distinct from the `timestamp`
argument used for eviction.
-/

def SUCCESS : Nat := 0

def FAILURE : Nat := 1

/-- WINDOW_SIZE: 10000 milliseconds. -/
def WINDOW_SIZE : Int := 10000

/-- MAX_REQ (= MAX_REQUESTS_PER_WINDOW): 10. -/
def MAX_REQ : Nat := 10

/-- The C `queue_t`: `entries` is the list of `data` fields along the node
chain from `head` to `tail`; `size` is the separately maintained `size`
field (`unsigned int`; overflow is immaterial at the sizes any execution of
this program reaches, so it is modelled as `Nat`). -/
structure queue_t where
  entries : List Int
  size : Nat
  deriving DecidableEq, Repr

/-- C `initialize_queue` (identical in both files): `malloc` the queue header
(`headerAlloc`), then `allocate_node` (`nodeAlloc`).  If the header `malloc`
fails, return FAILURE with `*q` still NULL.  If the node allocation fails,
return FAILURE leaving `*q` pointing at a header whose `head` and `tail` are
NULL and whose `size` field was never written — the uninitialized value is
the parameter `g`.  On success the queue holds the single entry with
`size = 1`. -/
def init_queue (headerAlloc nodeAlloc : Bool) (data : Int) (g : Nat) :
    Nat × Option queue_t :=
  if headerAlloc then
    if nodeAlloc then (SUCCESS, some ⟨[data], 1⟩)
    else (FAILURE, some ⟨[], g⟩)
  else (FAILURE, none)

/-- C `enqueue` from rate-limiter.c: a NULL queue goes to `initialize_queue`;
otherwise allocate a node (FAILURE if that fails, queue untouched); then if
`size` is nonzero link the node after `tail` (dereferencing `tail`, which is
NULL exactly when the chain is empty — modelled as `none`), else install the
node as the new `head`; finally `tail = temp; size++`. -/
def enqueue (headerAlloc nodeAlloc : Bool) (g : Nat) (q : Option queue_t)
    (data : Int) : Option (Nat × Option queue_t) :=
  match q with
  | none => some (init_queue headerAlloc nodeAlloc data g)
  | some qq =>
    if nodeAlloc then
      if qq.size ≠ 0 then
        match qq.entries with
        | [] => none
        | _ :: _ => some (SUCCESS, some ⟨qq.entries ++ [data], qq.size + 1⟩)
      else some (SUCCESS, some ⟨[data], qq.size + 1⟩)
    else some (FAILURE, some qq)

/-- C `enqueue` from rate-limiter-mt.c: same as the single-threaded variant
except the non-NULL-queue path runs `(*q)->tail->next = temp` with no
`size == 0` guard, so an allocated queue with an empty chain (NULL `tail`)
dereferences NULL — modelled as `none`. -/
def enqueue_mt (headerAlloc nodeAlloc : Bool) (g : Nat) (q : Option queue_t)
    (data : Int) : Option (Nat × Option queue_t) :=
  match q with
  | none => some (init_queue headerAlloc nodeAlloc data g)
  | some qq =>
    if nodeAlloc then
      match qq.entries with
      | [] => none
      | _ :: _ => some (SUCCESS, some ⟨qq.entries ++ [data], qq.size + 1⟩)
    else some (FAILURE, some qq)

/-- C `dequeue` (identical in both files): returns -1 leaving everything
untouched when `*q` is NULL or `head` is NULL; otherwise unlinks the head
node, fixes `tail` when the queue became empty, decrements `size`, and
returns the removed timestamp.  (The unsigned decrement is only reached with
a non-NULL `head`; every state the program reaches there has
`size = entries.length ≥ 1`, so truncated `Nat` subtraction is faithful.) -/
def dequeue (q : Option queue_t) : Int × Option queue_t :=
  match q with
  | none => (-1, none)
  | some qq =>
    match qq.entries with
    | [] => (-1, some qq)
    | d :: rest => (d, some ⟨rest, qq.size - 1⟩)

/-- The eviction `while` loop shared by `check_tenant_allowed` and
`check_allowed`: while the queue has a head and
`timestamp - head->data >= WINDOW_SIZE`, dequeue the head.  Takes and
returns the chain together with the `size` field. -/
def evict_loop (timestamp : Int) : List Int → Nat → List Int × Nat
  | [], s => ([], s)
  | d :: rest, s =>
    if WINDOW_SIZE ≤ timestamp - d then evict_loop timestamp rest (s - 1)
    else (d :: rest, s)

/-- C `check_tenant_allowed` (rate-limiter.c lines 155-167).  `timestamp` is
the caller's clock reading, used by the eviction loop; `enq_time` models the
value of the second `get_current_time_ms()` call on line 162, which is what
actually gets stored on admission.  The return code of `enqueue` is
discarded: the function returns SUCCESS whenever the post-eviction capacity
test passes, even if `enqueue` failed. -/
def check_tenant_allowed (q : Option queue_t) (timestamp enq_time : Int)
    (headerAlloc nodeAlloc : Bool) (g : Nat) : Option (Nat × Option queue_t) :=
  match q with
  | none =>
    match enqueue headerAlloc nodeAlloc g none enq_time with
    | none => none
    | some (_, q2) => some (SUCCESS, q2)
  | some qq =>
    let ev := evict_loop timestamp qq.entries qq.size
    if ev.2 < MAX_REQ then
      match enqueue headerAlloc nodeAlloc g (some ⟨ev.1, ev.2⟩) enq_time with
      | none => none
      | some (_, q2) => some (SUCCESS, q2)
    else some (FAILURE, some ⟨ev.1, ev.2⟩)

/-- C `check_allowed` (rate-limiter-mt.c lines 151-173), functional content:
identical control flow to `check_tenant_allowed` but calling the mt
`enqueue`.  The mutex operations do not affect the functional result; they
are modelled separately by `check_allowed_ev` below. -/
def check_allowed (q : Option queue_t) (timestamp enq_time : Int)
    (headerAlloc nodeAlloc : Bool) (g : Nat) : Option (Nat × Option queue_t) :=
  match q with
  | none =>
    match enqueue_mt headerAlloc nodeAlloc g none enq_time with
    | none => none
    | some (_, q2) => some (SUCCESS, q2)
  | some qq =>
    let ev := evict_loop timestamp qq.entries qq.size
    if ev.2 < MAX_REQ then
      match enqueue_mt headerAlloc nodeAlloc g (some ⟨ev.1, ev.2⟩) enq_time with
      | none => none
      | some (_, q2) => some (SUCCESS, q2)
    else some (FAILURE, some ⟨ev.1, ev.2⟩)

/-- Run a sequence of single-threaded admission checks (allocation always
succeeding).  Each element of the list is a pair
(`timestamp` argument, value of the internal clock read at enqueue time).
Returns the list of result codes and the final queue; a NULL dereference in
any step aborts the whole run with `none`. -/
def run_st : Option queue_t → List (Int × Int) → Option (List Nat × Option queue_t)
  | q, [] => some ([], q)
  | q, (t, e) :: rest =>
    match check_tenant_allowed q t e true true 0 with
    | none => none
    | some (c, q1) =>
      match run_st q1 rest with
      | none => none
      | some (cs, qf) => some (c :: cs, qf)

/-- Run a sequence of mt admission checks, as `run_st`. -/
def run_mt : Option queue_t → List (Int × Int) → Option (List Nat × Option queue_t)
  | q, [] => some ([], q)
  | q, (t, e) :: rest =>
    match check_allowed q t e true true 0 with
    | none => none
    | some (c, q1) =>
      match run_mt q1 rest with
      | none => none
      | some (cs, qf) => some (c :: cs, qf)

/-- The node chain of a possibly-absent queue. -/
def entriesq : Option queue_t → List Int
  | none => []
  | some qq => qq.entries

/-- The `size` field of a possibly-absent queue (0 when absent). -/
def sizeq : Option queue_t → Nat
  | none => 0
  | some qq => qq.size

/-- The head timestamp of a possibly-absent queue. -/
def headq (q : Option queue_t) : Option Int :=
  (entriesq q).head?

/-- Well-formedness: the `size` field agrees with the length of the chain. -/
def wfq (q : Option queue_t) : Prop :=
  sizeq q = (entriesq q).length

/-- Events observable on one tenant slot during one mt admission check:
mutex acquisition / release, a read of the queue contents (head timestamp or
size field), a mutation (node unlinked or appended). -/
inductive Ev where
  | lockEv
  | unlockEv
  | readEv
  | mutateEv
  deriving DecidableEq, Repr

/-- The eviction loop with its event trace: each evicted head contributes a
read of its timestamp and a mutation; the final failed loop test on a
non-empty queue contributes one read. -/
def evict_loop_ev (timestamp : Int) : List Int → Nat → List Int × Nat × List Ev
  | [], s => ([], s, [])
  | d :: rest, s =>
    if WINDOW_SIZE ≤ timestamp - d then
      let r := evict_loop_ev timestamp rest (s - 1)
      (r.1, r.2.1, Ev.readEv :: Ev.mutateEv :: r.2.2)
    else (d :: rest, s, [Ev.readEv])

/-- Event-trace semantics of the mt `check_allowed` (allocation succeeding):
the mutex is locked only when `*q` is non-NULL at entry (line 156-157) and
unlocked only when `*q` is non-NULL at exit (line 169-170); in between come
the queue-content reads and mutations of the eviction loop, the capacity
test, and the enqueue, in program order. -/
def check_allowed_ev (q : Option queue_t) (timestamp enq_time : Int) :
    Option (Nat × Option queue_t × List Ev) :=
  match q with
  | none =>
    match enqueue_mt true true 0 none enq_time with
    | none => none
    | some (_, q2) =>
      some (SUCCESS, q2,
        Ev.mutateEv :: (if q2.isSome then [Ev.unlockEv] else []))
  | some qq =>
    let ev := evict_loop_ev timestamp qq.entries qq.size
    if ev.2.1 < MAX_REQ then
      match enqueue_mt true true 0 (some ⟨ev.1, ev.2.1⟩) enq_time with
      | none => none
      | some (_, q2) =>
        some (SUCCESS, q2,
          Ev.lockEv :: ev.2.2 ++ [Ev.readEv, Ev.mutateEv] ++
            (if q2.isSome then [Ev.unlockEv] else []))
    else
      some (FAILURE, some ⟨ev.1, ev.2.1⟩,
        Ev.lockEv :: ev.2.2 ++ [Ev.readEv, Ev.unlockEv])

/-! ### Characterization of the eviction loop -/

/-- The loop guard of the eviction `while`: the head entry has aged at least
`WINDOW_SIZE` out of `t`. -/
def expired (t d : Int) : Bool :=
  decide (WINDOW_SIZE ≤ t - d)

theorem evict_loop_spec (t : Int) :
    ∀ (l : List Int) (s : Nat),
      evict_loop t l s =
        (l.dropWhile (expired t), s - (l.takeWhile (expired t)).length) := by
  intro l
  induction l with
  | nil => intro s; simp [evict_loop, List.dropWhile, List.takeWhile]
  | cons d rest ih =>
    intro s
    by_cases h : WINDOW_SIZE ≤ t - d
    · simp [evict_loop, h, List.dropWhile, List.takeWhile, expired, ih,
        Nat.sub_sub, Nat.add_comm]
    · simp [evict_loop, h, List.dropWhile, List.takeWhile, expired]

theorem evict_loop_wf {l : List Int} {s : Nat} (t : Int) (hwf : s = l.length) :
    evict_loop t l s =
      (l.dropWhile (expired t), (l.dropWhile (expired t)).length) := by
  have h := congrArg List.length (List.takeWhile_append_dropWhile (expired t) l)
  simp only [List.length_append] at h
  rw [evict_loop_spec, hwf]
  have h2 : l.length - (l.takeWhile (expired t)).length =
      (l.dropWhile (expired t)).length := by omega
  rw [h2]

/-! ### Step lemmas for the two admission checks, on well-formed states -/

theorem check_st_none (t e : Int) (g : Nat) :
    check_tenant_allowed none t e true true g = some (SUCCESS, some ⟨[e], 1⟩) := by
  rfl

theorem check_mt_none (t e : Int) (g : Nat) :
    check_allowed none t e true true g = some (SUCCESS, some ⟨[e], 1⟩) := by
  rfl

theorem check_st_allow (q : Option queue_t) (t e : Int) (g : Nat)
    (hwf : wfq q)
    (hlt : ((entriesq q).dropWhile (expired t)).length < MAX_REQ) :
    check_tenant_allowed q t e true true g =
      some (SUCCESS, some ⟨(entriesq q).dropWhile (expired t) ++ [e],
        ((entriesq q).dropWhile (expired t)).length + 1⟩) := by
  match q with
  | none => simp [check_st_none, entriesq, List.dropWhile]
  | some qq =>
    have hwf' : qq.size = qq.entries.length := hwf
    simp only [check_tenant_allowed, entriesq] at *
    rw [evict_loop_wf t hwf']
    simp only [hlt, if_pos]
    cases hdw : qq.entries.dropWhile (expired t) with
    | nil => simp [enqueue, hdw]
    | cons x xs => simp [enqueue, hdw]

theorem check_st_reject (q : Option queue_t) (t e : Int) (g : Nat)
    (hwf : wfq q)
    (hge : MAX_REQ ≤ ((entriesq q).dropWhile (expired t)).length) :
    check_tenant_allowed q t e true true g =
      some (FAILURE, some ⟨(entriesq q).dropWhile (expired t),
        ((entriesq q).dropWhile (expired t)).length⟩) := by
  match q with
  | none => simp [entriesq, List.dropWhile, MAX_REQ] at hge
  | some qq =>
    have hwf' : qq.size = qq.entries.length := hwf
    simp only [check_tenant_allowed, entriesq] at *
    rw [evict_loop_wf t hwf']
    simp [Nat.not_lt.mpr hge]

theorem check_mt_allow (qq : queue_t) (t e : Int) (g : Nat)
    (hwf : wfq (some qq))
    (hlt : (qq.entries.dropWhile (expired t)).length < MAX_REQ)
    (hne : qq.entries.dropWhile (expired t) ≠ []) :
    check_allowed (some qq) t e true true g =
      some (SUCCESS, some ⟨qq.entries.dropWhile (expired t) ++ [e],
        (qq.entries.dropWhile (expired t)).length + 1⟩) := by
  have hwf' : qq.size = qq.entries.length := hwf
  simp only [check_allowed]
  rw [evict_loop_wf t hwf']
  simp only [hlt, if_pos]
  cases hdw : qq.entries.dropWhile (expired t) with
  | nil => exact absurd hdw hne
  | cons x xs => simp [enqueue_mt, hdw]

theorem check_mt_crash (qq : queue_t) (t e : Int) (g : Nat)
    (hwf : wfq (some qq))
    (hempty : qq.entries.dropWhile (expired t) = []) :
    check_allowed (some qq) t e true true g = none := by
  have hwf' : qq.size = qq.entries.length := hwf
  simp only [check_allowed]
  rw [evict_loop_wf t hwf']
  simp [hempty, enqueue_mt, MAX_REQ]

theorem check_mt_reject (qq : queue_t) (t e : Int) (g : Nat)
    (hwf : wfq (some qq))
    (hge : MAX_REQ ≤ (qq.entries.dropWhile (expired t)).length) :
    check_allowed (some qq) t e true true g =
      some (FAILURE, some ⟨qq.entries.dropWhile (expired t),
        (qq.entries.dropWhile (expired t)).length⟩) := by
  have hwf' : qq.size = qq.entries.length := hwf
  simp only [check_allowed]
  rw [evict_loop_wf t hwf']
  simp [Nat.not_lt.mpr hge]

/-! ### Invariants of sequences of admission checks -/

/-- The chain is non-decreasing from head to tail. -/
def sortedq (q : Option queue_t) : Prop :=
  (entriesq q).Sorted (· ≤ ·)

/-- Every stored timestamp is at most `T`. -/
def le_allq (q : Option queue_t) (T : Int) : Prop :=
  ∀ x ∈ entriesq q, x ≤ T

/-- Every stored timestamp is at least `h`. -/
def ge_allq (h : Int) (q : Option queue_t) : Prop :=
  ∀ x ∈ entriesq q, h ≤ x

/-- `timeOrdered t0 ts`: the interleaving
`t0 ≤ t₁ ≤ e₁ ≤ t₂ ≤ e₂ ≤ …` of the caller-side clock reads (`timestamp`
arguments) and the internal clock reads at enqueue time is monotone — the
real-time behaviour of successive `get_current_time_ms()` calls. -/
def timeOrdered : Int → List (Int × Int) → Prop
  | _, [] => True
  | t0, p :: rest => t0 ≤ p.1 ∧ p.1 ≤ p.2 ∧ timeOrdered p.2 rest

/-- The last clock reading of a call sequence (`t0` if the sequence is
empty). -/
def endBound : Int → List (Int × Int) → Int
  | t0, [] => t0
  | _, p :: rest => endBound p.2 rest

theorem sorted_head_le {l : List Int} (hs : l.Sorted (· ≤ ·)) {h : Int}
    (hh : l.head? = some h) : ∀ x ∈ l, h ≤ x := by
  cases l with
  | nil => simp at hh
  | cons d rest =>
    simp only [List.head?_cons, Option.some.injEq] at hh
    subst hh
    intro x hx
    rcases List.mem_cons.mp hx with rfl | hx
    · exact le_refl _
    · exact (List.pairwise_cons.mp hs).1 x hx

theorem timeOrdered_append :
    ∀ (a b : List (Int × Int)) (t0 : Int),
      timeOrdered t0 (a ++ b) ↔
        timeOrdered t0 a ∧ timeOrdered (endBound t0 a) b := by
  intro a
  induction a with
  | nil => intro b t0; simp [timeOrdered, endBound]
  | cons p rest ih =>
    intro b t0
    simp only [List.cons_append, List.append_eq, timeOrdered, endBound, ih,
      and_assoc]

theorem run_st_append :
    ∀ (a b : List (Int × Int)) (q : Option queue_t),
      run_st q (a ++ b) =
        match run_st q a with
        | none => none
        | some (cs, q1) =>
          match run_st q1 b with
          | none => none
          | some (cs2, q2) => some (cs ++ cs2, q2) := by
  intro a
  induction a with
  | nil =>
    intro b q
    cases hr : run_st q b with
    | none => simp [run_st, hr]
    | some r => cases r with | mk cs2 q2 => simp [run_st, hr]
  | cons p rest ih =>
    intro b q
    cases p with
    | mk t e =>
      simp only [List.cons_append, run_st]
      cases hc : check_tenant_allowed q t e true true 0 with
      | none => rfl
      | some r =>
        cases r with
        | mk c q1 =>
          simp only [List.append_eq]
          rw [ih]
          cases hr : run_st q1 rest with
          | none => rfl
          | some r2 =>
            cases r2 with
            | mk cs qf =>
              simp only
              cases hr2 : run_st qf b with
              | none => rfl
              | some r3 => cases r3 with | mk cs2 q2 => rfl

/-- Single-threaded runs from a well-formed, sorted, bounded state always
complete (never dereference NULL), and preserve well-formedness, sortedness,
the running upper bound, and any lower bound `h` below the first clock
reading. -/
theorem run_st_inv :
    ∀ (ts : List (Int × Int)) (t0 : Int) (q : Option queue_t) (h : Int),
      timeOrdered t0 ts → wfq q → sortedq q → le_allq q t0 →
      ge_allq h q → h ≤ t0 →
      ∃ cs q', run_st q ts = some (cs, q') ∧ wfq q' ∧ sortedq q' ∧
        le_allq q' (endBound t0 ts) ∧ ge_allq h q' := by
  intro ts
  induction ts with
  | nil =>
    intro t0 q h _ hwf hs hb hg _
    exact ⟨[], q, rfl, hwf, hs, hb, hg⟩
  | cons p rest ih =>
    intro t0 q h hord hwf hs hb hg hh
    cases p with
    | mk t e =>
      obtain ⟨h01, h12, hrest⟩ := hord
      have hhe : h ≤ e := le_trans hh (le_trans h01 h12)
      have hsub := List.dropWhile_sublist (α := Int) (expired t) (l := entriesq q)
      have hs1 : ((entriesq q).dropWhile (expired t)).Sorted (· ≤ ·) :=
        List.Pairwise.sublist hsub hs
      have hb1 : ∀ x ∈ (entriesq q).dropWhile (expired t), x ≤ e := by
        intro x hx
        exact le_trans (hb x (hsub.subset hx)) (le_trans h01 h12)
      have hg1 : ∀ x ∈ (entriesq q).dropWhile (expired t), h ≤ x := by
        intro x hx
        exact hg x (hsub.subset hx)
      by_cases hlt : ((entriesq q).dropWhile (expired t)).length < MAX_REQ
      · have hchk := check_st_allow q t e 0 hwf hlt
        have hwf1 : wfq (some ⟨(entriesq q).dropWhile (expired t) ++ [e],
            ((entriesq q).dropWhile (expired t)).length + 1⟩) := by
          simp [wfq, sizeq, entriesq]
        have hs2 : sortedq (some ⟨(entriesq q).dropWhile (expired t) ++ [e],
            ((entriesq q).dropWhile (expired t)).length + 1⟩) := by
          simp only [sortedq, entriesq, List.Sorted, List.pairwise_append]
          exact ⟨hs1, List.pairwise_singleton _ _, by
            intro a ha b hbm
            simp only [List.mem_singleton] at hbm
            subst hbm
            exact hb1 a ha⟩
        have hb2 : le_allq (some ⟨(entriesq q).dropWhile (expired t) ++ [e],
            ((entriesq q).dropWhile (expired t)).length + 1⟩) e := by
          intro x hx
          simp only [entriesq, List.mem_append, List.mem_singleton] at hx
          rcases hx with hx | rfl
          · exact hb1 x hx
          · exact le_refl _
        have hg2 : ge_allq h (some ⟨(entriesq q).dropWhile (expired t) ++ [e],
            ((entriesq q).dropWhile (expired t)).length + 1⟩) := by
          intro x hx
          simp only [entriesq, List.mem_append, List.mem_singleton] at hx
          rcases hx with hx | rfl
          · exact hg1 x hx
          · exact hhe
        obtain ⟨cs, q', hrun, hwf', hs', hb', hg'⟩ :=
          ih e _ h hrest hwf1 hs2 hb2 hg2 hhe
        refine ⟨SUCCESS :: cs, q', ?_, hwf', hs', hb', hg'⟩
        simp [run_st, hchk, hrun]
      · have hge := Nat.not_lt.mp hlt
        have hchk := check_st_reject q t e 0 hwf hge
        have hwf1 : wfq (some ⟨(entriesq q).dropWhile (expired t),
            ((entriesq q).dropWhile (expired t)).length⟩) := by
          simp [wfq, sizeq, entriesq]
        have hs2 : sortedq (some ⟨(entriesq q).dropWhile (expired t),
            ((entriesq q).dropWhile (expired t)).length⟩) := hs1
        have hb2 : le_allq (some ⟨(entriesq q).dropWhile (expired t),
            ((entriesq q).dropWhile (expired t)).length⟩) e := hb1
        have hg2 : ge_allq h (some ⟨(entriesq q).dropWhile (expired t),
            ((entriesq q).dropWhile (expired t)).length⟩) := hg1
        obtain ⟨cs, q', hrun, hwf', hs', hb', hg'⟩ :=
          ih e _ h hrest hwf1 hs2 hb2 hg2 hhe
        refine ⟨FAILURE :: cs, q', ?_, hwf', hs', hb', hg'⟩
        simp [run_st, hchk, hrun]

/-- Case analysis of a completed single-threaded check on a well-formed
state: either the post-eviction queue was below the ceiling and `enq_time`
was appended, or it was full and the (evicted) queue is returned unchanged. -/
theorem check_st_sound (q : Option queue_t) (t e : Int) (g : Nat)
    (hwf : wfq q) {c : Nat} {q1 : Option queue_t}
    (hc : check_tenant_allowed q t e true true g = some (c, q1)) :
    (((entriesq q).dropWhile (expired t)).length < MAX_REQ ∧ c = SUCCESS ∧
      q1 = some ⟨(entriesq q).dropWhile (expired t) ++ [e],
        ((entriesq q).dropWhile (expired t)).length + 1⟩) ∨
    (MAX_REQ ≤ ((entriesq q).dropWhile (expired t)).length ∧ c = FAILURE ∧
      q1 = some ⟨(entriesq q).dropWhile (expired t),
        ((entriesq q).dropWhile (expired t)).length⟩) := by
  by_cases hlt : ((entriesq q).dropWhile (expired t)).length < MAX_REQ
  · rw [check_st_allow q t e g hwf hlt] at hc
    obtain ⟨rfl, rfl⟩ := Prod.mk.injEq .. ▸ Option.some.injEq .. ▸ hc
    exact Or.inl ⟨hlt, rfl, rfl⟩
  · have hge := Nat.not_lt.mp hlt
    rw [check_st_reject q t e g hwf hge] at hc
    obtain ⟨rfl, rfl⟩ := Prod.mk.injEq .. ▸ Option.some.injEq .. ▸ hc
    exact Or.inr ⟨hge, rfl, rfl⟩

/-- Case analysis of a completed mt check on a well-formed state.  The crash
case (`check_mt_crash`) is excluded by the completion hypothesis. -/
theorem check_mt_sound (q : Option queue_t) (t e : Int) (g : Nat)
    (hwf : wfq q) {c : Nat} {q1 : Option queue_t}
    (hc : check_allowed q t e true true g = some (c, q1)) :
    (((entriesq q).dropWhile (expired t)).length < MAX_REQ ∧ c = SUCCESS ∧
      q1 = some ⟨(entriesq q).dropWhile (expired t) ++ [e],
        ((entriesq q).dropWhile (expired t)).length + 1⟩) ∨
    (MAX_REQ ≤ ((entriesq q).dropWhile (expired t)).length ∧ c = FAILURE ∧
      q1 = some ⟨(entriesq q).dropWhile (expired t),
        ((entriesq q).dropWhile (expired t)).length⟩) := by
  match q with
  | none =>
    rw [check_mt_none t e g] at hc
    obtain ⟨rfl, rfl⟩ := Prod.mk.injEq .. ▸ Option.some.injEq .. ▸ hc
    refine Or.inl ⟨?_, rfl, ?_⟩ <;> simp [entriesq, List.dropWhile, MAX_REQ]
  | some qq =>
    by_cases hemp : qq.entries.dropWhile (expired t) = []
    · rw [check_mt_crash qq t e g hwf hemp] at hc
      exact absurd hc (by simp)
    · by_cases hlt : ((entriesq (some qq)).dropWhile (expired t)).length < MAX_REQ
      · rw [check_mt_allow qq t e g hwf hlt hemp] at hc
        obtain ⟨rfl, rfl⟩ := Prod.mk.injEq .. ▸ Option.some.injEq .. ▸ hc
        exact Or.inl ⟨hlt, rfl, rfl⟩
      · have hge := Nat.not_lt.mp hlt
        rw [check_mt_reject qq t e g hwf hge] at hc
        obtain ⟨rfl, rfl⟩ := Prod.mk.injEq .. ▸ Option.some.injEq .. ▸ hc
        exact Or.inr ⟨hge, rfl, rfl⟩

/-- Invariant preservation along a completed mt run: well-formedness,
sortedness, the running upper bound and any lower bound below the first
clock reading all persist (the crash path aborts the run, so a completed
run never took it). -/
theorem run_mt_inv :
    ∀ (ts : List (Int × Int)) (t0 : Int) (q : Option queue_t) (h : Int),
      timeOrdered t0 ts → wfq q → sortedq q → le_allq q t0 →
      ge_allq h q → h ≤ t0 →
      ∀ cs q', run_mt q ts = some (cs, q') →
        wfq q' ∧ sortedq q' ∧ le_allq q' (endBound t0 ts) ∧ ge_allq h q' := by
  intro ts
  induction ts with
  | nil =>
    intro t0 q h _ hwf hs hb hg _ cs q' hrun
    simp only [run_mt, Option.some.injEq, Prod.mk.injEq] at hrun
    rw [← hrun.2]
    exact ⟨hwf, hs, hb, hg⟩
  | cons p rest ih =>
    intro t0 q h hord hwf hs hb hg hh cs q' hrun
    cases p with
    | mk t e =>
      obtain ⟨h01, h12, hrest⟩ := hord
      have hhe : h ≤ e := le_trans hh (le_trans h01 h12)
      simp only [run_mt] at hrun
      cases hc : check_allowed q t e true true 0 with
      | none => rw [hc] at hrun; exact absurd hrun (by simp)
      | some r =>
        cases r with
        | mk c q1 =>
          rw [hc] at hrun
          simp only at hrun
          cases hr : run_mt q1 rest with
          | none => rw [hr] at hrun; exact absurd hrun (by simp)
          | some r2 =>
            cases r2 with
            | mk cs2 qf =>
              rw [hr] at hrun
              simp only [Option.some.injEq, Prod.mk.injEq] at hrun
              obtain ⟨-, rfl⟩ := hrun
              have hsub := List.dropWhile_sublist (α := Int) (expired t)
                (l := entriesq q)
              have hs1 : ((entriesq q).dropWhile (expired t)).Sorted (· ≤ ·) :=
                List.Pairwise.sublist hsub hs
              have hb1 : ∀ x ∈ (entriesq q).dropWhile (expired t), x ≤ e := by
                intro x hx
                exact le_trans (hb x (hsub.subset hx)) (le_trans h01 h12)
              have hg1 : ∀ x ∈ (entriesq q).dropWhile (expired t), h ≤ x := by
                intro x hx
                exact hg x (hsub.subset hx)
              rcases check_mt_sound q t e 0 hwf hc with ⟨hlt, -, rfl⟩ | ⟨-, -, rfl⟩
              · have hwf1 : wfq (some ⟨(entriesq q).dropWhile (expired t) ++ [e],
                    ((entriesq q).dropWhile (expired t)).length + 1⟩) := by
                  simp [wfq, sizeq, entriesq]
                have hs2 : sortedq (some ⟨(entriesq q).dropWhile (expired t) ++ [e],
                    ((entriesq q).dropWhile (expired t)).length + 1⟩) := by
                  simp only [sortedq, entriesq, List.Sorted, List.pairwise_append]
                  exact ⟨hs1, List.pairwise_singleton _ _, by
                    intro a ha b hbm
                    simp only [List.mem_singleton] at hbm
                    subst hbm
                    exact hb1 a ha⟩
                have hb2 : le_allq (some ⟨(entriesq q).dropWhile (expired t) ++ [e],
                    ((entriesq q).dropWhile (expired t)).length + 1⟩) e := by
                  intro x hx
                  simp only [entriesq, List.mem_append, List.mem_singleton] at hx
                  rcases hx with hx | rfl
                  · exact hb1 x hx
                  · exact le_refl _
                have hg2 : ge_allq h (some ⟨(entriesq q).dropWhile (expired t) ++ [e],
                    ((entriesq q).dropWhile (expired t)).length + 1⟩) := by
                  intro x hx
                  simp only [entriesq, List.mem_append, List.mem_singleton] at hx
                  rcases hx with hx | rfl
                  · exact hg1 x hx
                  · exact hhe
                exact ih e _ h hrest hwf1 hs2 hb2 hg2 hhe cs2 qf hr
              · have hwf1 : wfq (some ⟨(entriesq q).dropWhile (expired t),
                    ((entriesq q).dropWhile (expired t)).length⟩) := by
                  simp [wfq, sizeq, entriesq]
                exact ih e _ h hrest hwf1 hs1 hb1 hg1 hhe cs2 qf hr

/-- Single-threaded runs from a well-formed state with at most MAX_REQ
entries always complete and keep the size at most MAX_REQ, with no
constraint at all on the order of the clock readings. -/
theorem run_st_bound :
    ∀ (ts : List (Int × Int)) (q : Option queue_t),
      wfq q → sizeq q ≤ MAX_REQ →
      ∃ cs q', run_st q ts = some (cs, q') ∧ wfq q' ∧ sizeq q' ≤ MAX_REQ := by
  intro ts
  induction ts with
  | nil => intro q hwf hsz; exact ⟨[], q, rfl, hwf, hsz⟩
  | cons p rest ih =>
    intro q hwf hsz
    cases p with
    | mk t e =>
      have hsub := List.dropWhile_sublist (α := Int) (expired t) (l := entriesq q)
      have hlen : ((entriesq q).dropWhile (expired t)).length ≤ sizeq q := by
        rw [hwf]; exact hsub.length_le
      by_cases hlt : ((entriesq q).dropWhile (expired t)).length < MAX_REQ
      · have hchk := check_st_allow q t e 0 hwf hlt
        have hwf1 : wfq (some ⟨(entriesq q).dropWhile (expired t) ++ [e],
            ((entriesq q).dropWhile (expired t)).length + 1⟩) := by
          simp [wfq, sizeq, entriesq]
        have hsz1 : sizeq (some ⟨(entriesq q).dropWhile (expired t) ++ [e],
            ((entriesq q).dropWhile (expired t)).length + 1⟩) ≤ MAX_REQ := by
          simp only [sizeq]
          omega
        obtain ⟨cs, q', hrun, hwf', hsz'⟩ := ih _ hwf1 hsz1
        exact ⟨SUCCESS :: cs, q', by simp [run_st, hchk, hrun], hwf', hsz'⟩
      · have hge := Nat.not_lt.mp hlt
        have hchk := check_st_reject q t e 0 hwf hge
        have hwf1 : wfq (some ⟨(entriesq q).dropWhile (expired t),
            ((entriesq q).dropWhile (expired t)).length⟩) := by
          simp [wfq, sizeq, entriesq]
        have hsz1 : sizeq (some ⟨(entriesq q).dropWhile (expired t),
            ((entriesq q).dropWhile (expired t)).length⟩) ≤ MAX_REQ := by
          simp only [sizeq]
          omega
        obtain ⟨cs, q', hrun, hwf', hsz'⟩ := ih _ hwf1 hsz1
        exact ⟨FAILURE :: cs, q', by simp [run_st, hchk, hrun], hwf', hsz'⟩

/-- Along any completed mt run from a well-formed state with at most MAX_REQ
entries, the size stays at most MAX_REQ (again with no constraint on clock
readings; a run that hits the NULL dereference aborts instead). -/
theorem run_mt_bound :
    ∀ (ts : List (Int × Int)) (q : Option queue_t),
      wfq q → sizeq q ≤ MAX_REQ →
      ∀ cs q', run_mt q ts = some (cs, q') → wfq q' ∧ sizeq q' ≤ MAX_REQ := by
  intro ts
  induction ts with
  | nil =>
    intro q hwf hsz cs q' hrun
    simp only [run_mt, Option.some.injEq, Prod.mk.injEq] at hrun
    rw [← hrun.2]
    exact ⟨hwf, hsz⟩
  | cons p rest ih =>
    intro q hwf hsz cs q' hrun
    cases p with
    | mk t e =>
      have hsub := List.dropWhile_sublist (α := Int) (expired t) (l := entriesq q)
      have hlen : ((entriesq q).dropWhile (expired t)).length ≤ sizeq q := by
        rw [hwf]; exact hsub.length_le
      simp only [run_mt] at hrun
      cases hc : check_allowed q t e true true 0 with
      | none => rw [hc] at hrun; exact absurd hrun (by simp)
      | some r =>
        cases r with
        | mk c q1 =>
          rw [hc] at hrun
          simp only at hrun
          cases hr : run_mt q1 rest with
          | none => rw [hr] at hrun; exact absurd hrun (by simp)
          | some r2 =>
            cases r2 with
            | mk cs2 qf =>
              rw [hr] at hrun
              simp only [Option.some.injEq, Prod.mk.injEq] at hrun
              obtain ⟨-, rfl⟩ := hrun
              rcases check_mt_sound q t e 0 hwf hc with ⟨hlt, -, rfl⟩ | ⟨-, -, rfl⟩
              · have hwf1 : wfq (some ⟨(entriesq q).dropWhile (expired t) ++ [e],
                    ((entriesq q).dropWhile (expired t)).length + 1⟩) := by
                  simp [wfq, sizeq, entriesq]
                have hsz1 : sizeq (some ⟨(entriesq q).dropWhile (expired t) ++ [e],
                    ((entriesq q).dropWhile (expired t)).length + 1⟩) ≤ MAX_REQ := by
                  simp only [sizeq]
                  omega
                exact ih _ hwf1 hsz1 cs2 qf hr
              · have hwf1 : wfq (some ⟨(entriesq q).dropWhile (expired t),
                    ((entriesq q).dropWhile (expired t)).length⟩) := by
                  simp [wfq, sizeq, entriesq]
                have hsz1 : sizeq (some ⟨(entriesq q).dropWhile (expired t),
                    ((entriesq q).dropWhile (expired t)).length⟩) ≤ MAX_REQ := by
                  simp only [sizeq]
                  omega
                exact ih _ hwf1 hsz1 cs2 qf hr

/-! ### Runs of identical timestamps (claims about a single instant) -/

theorem dropWhile_replicate_self (t : Int) (k : Nat) :
    (List.replicate k t).dropWhile (expired t) = List.replicate k t := by
  cases k with
  | zero => rfl
  | succ n =>
    rw [List.replicate_succ]
    simp [List.dropWhile, expired, WINDOW_SIZE]

theorem check_st_replicate_step (t : Int) (k : Nat) (hk : k < MAX_REQ) :
    check_tenant_allowed (some ⟨List.replicate k t, k⟩) t t true true 0 =
      some (SUCCESS, some ⟨List.replicate (k + 1) t, k + 1⟩) := by
  have hwf : wfq (some ⟨List.replicate k t, k⟩) := by
    simp [wfq, sizeq, entriesq]
  have hdw : (entriesq (some ⟨List.replicate k t, k⟩)).dropWhile (expired t) =
      List.replicate k t := dropWhile_replicate_self t k
  have hlt : ((entriesq (some ⟨List.replicate k t, k⟩)).dropWhile
      (expired t)).length < MAX_REQ := by
    rw [hdw]; simpa using hk
  have h := check_st_allow (some ⟨List.replicate k t, k⟩) t t 0 hwf hlt
  rw [hdw] at h
  simp only [List.length_replicate] at h
  rw [← List.replicate_succ'] at h
  exact h

theorem check_mt_replicate_step (t : Int) (k : Nat) (hk1 : 1 ≤ k)
    (hk : k < MAX_REQ) :
    check_allowed (some ⟨List.replicate k t, k⟩) t t true true 0 =
      some (SUCCESS, some ⟨List.replicate (k + 1) t, k + 1⟩) := by
  have hwf : wfq (some ⟨List.replicate k t, k⟩) := by
    simp [wfq, sizeq, entriesq]
  have hdw : (entriesq (some ⟨List.replicate k t, k⟩)).dropWhile (expired t) =
      List.replicate k t := dropWhile_replicate_self t k
  have hdw' : (⟨List.replicate k t, k⟩ : queue_t).entries.dropWhile (expired t) =
      List.replicate k t := hdw
  have hlt : ((⟨List.replicate k t, k⟩ : queue_t).entries.dropWhile
      (expired t)).length < MAX_REQ := by
    rw [hdw']; simpa using hk
  have hne : (⟨List.replicate k t, k⟩ : queue_t).entries.dropWhile
      (expired t) ≠ [] := by
    rw [hdw']
    simp only [ne_eq, List.replicate_eq_nil_iff]
    omega
  have h := check_mt_allow ⟨List.replicate k t, k⟩ t t 0 hwf hlt hne
  rw [hdw'] at h
  simp only [List.length_replicate] at h
  rw [← List.replicate_succ'] at h
  exact h

theorem run_st_replicate (t : Int) :
    ∀ (n k : Nat), k + n ≤ MAX_REQ →
      run_st (some ⟨List.replicate k t, k⟩) (List.replicate n (t, t)) =
        some (List.replicate n SUCCESS, some ⟨List.replicate (k + n) t, k + n⟩) := by
  intro n
  induction n with
  | zero => intro k hk; simp [run_st]
  | succ m ih =>
    intro k hk
    have hstep := check_st_replicate_step t k (by omega)
    have hrest := ih (k + 1) (by omega)
    have harith : k + (m + 1) = (k + 1) + m := by omega
    rw [harith]
    have hl : List.replicate (m + 1) (t, t) = (t, t) :: List.replicate m (t, t) :=
      List.replicate_succ _ _
    have hr : List.replicate (m + 1) SUCCESS = SUCCESS :: List.replicate m SUCCESS :=
      List.replicate_succ _ _
    rw [hl, hr]
    simp only [run_st, hstep, hrest]

theorem run_mt_replicate (t : Int) :
    ∀ (n k : Nat), 1 ≤ k → k + n ≤ MAX_REQ →
      run_mt (some ⟨List.replicate k t, k⟩) (List.replicate n (t, t)) =
        some (List.replicate n SUCCESS, some ⟨List.replicate (k + n) t, k + n⟩) := by
  intro n
  induction n with
  | zero => intro k hk1 hk; simp [run_mt]
  | succ m ih =>
    intro k hk1 hk
    have hstep := check_mt_replicate_step t k hk1 (by omega)
    have hrest := ih (k + 1) (by omega) (by omega)
    have harith : k + (m + 1) = (k + 1) + m := by omega
    rw [harith]
    have hl : List.replicate (m + 1) (t, t) = (t, t) :: List.replicate m (t, t) :=
      List.replicate_succ _ _
    have hr : List.replicate (m + 1) SUCCESS = SUCCESS :: List.replicate m SUCCESS :=
      List.replicate_succ _ _
    rw [hl, hr]
    simp only [run_mt, hstep, hrest]

theorem run_st_from_none (t e : Int) (l : List (Int × Int)) :
    run_st none ((t, e) :: l) =
      match run_st (some ⟨[e], 1⟩) l with
      | none => none
      | some (cs, qf) => some (SUCCESS :: cs, qf) := by
  rfl

theorem run_mt_from_none (t e : Int) (l : List (Int × Int)) :
    run_mt none ((t, e) :: l) =
      match run_mt (some ⟨[e], 1⟩) l with
      | none => none
      | some (cs, qf) => some (SUCCESS :: cs, qf) := by
  rfl

/-! ### Claim theorems -/

/-- C1: for every tenant with no prior history (absent queue), a sequence of
MAX_REQ (= 10) admission checks at one and the same timestamp all return
SUCCESS, and one more check at that timestamp returns FAILURE — in both the
single-threaded (`check_tenant_allowed`) and the mt (`check_allowed`)
variants. -/
theorem c1_window_correctness (t : Int) :
    run_st none (List.replicate MAX_REQ (t, t)) =
      some (List.replicate MAX_REQ SUCCESS,
        some ⟨List.replicate MAX_REQ t, MAX_REQ⟩) ∧
    check_tenant_allowed (some ⟨List.replicate MAX_REQ t, MAX_REQ⟩) t t
        true true 0 =
      some (FAILURE, some ⟨List.replicate MAX_REQ t, MAX_REQ⟩) ∧
    run_mt none (List.replicate MAX_REQ (t, t)) =
      some (List.replicate MAX_REQ SUCCESS,
        some ⟨List.replicate MAX_REQ t, MAX_REQ⟩) ∧
    check_allowed (some ⟨List.replicate MAX_REQ t, MAX_REQ⟩) t t true true 0 =
      some (FAILURE, some ⟨List.replicate MAX_REQ t, MAX_REQ⟩) := by
  have hwf10 : wfq (some ⟨List.replicate MAX_REQ t, MAX_REQ⟩) := by
    simp [wfq, sizeq, entriesq, MAX_REQ]
  have hdw10 : (entriesq (some ⟨List.replicate MAX_REQ t, MAX_REQ⟩)).dropWhile
      (expired t) = List.replicate MAX_REQ t := dropWhile_replicate_self t MAX_REQ
  have hge10 : MAX_REQ ≤ ((entriesq (some ⟨List.replicate MAX_REQ t,
      MAX_REQ⟩)).dropWhile (expired t)).length := by
    rw [hdw10]; simp
  refine ⟨?_, ?_, ?_, ?_⟩
  · have h9 : run_st (some ⟨[t], 1⟩) (List.replicate 9 (t, t)) =
        some (List.replicate 9 SUCCESS, some ⟨List.replicate 10 t, 10⟩) :=
      run_st_replicate t 9 1 (by simp [MAX_REQ])
    show run_st none ((t, t) :: List.replicate 9 (t, t)) =
      some (SUCCESS :: List.replicate 9 SUCCESS, some ⟨List.replicate 10 t, 10⟩)
    rw [run_st_from_none, h9]
  · have h := check_st_reject _ t t 0 hwf10 hge10
    rw [hdw10] at h
    simpa [MAX_REQ] using h
  · have h9 : run_mt (some ⟨[t], 1⟩) (List.replicate 9 (t, t)) =
        some (List.replicate 9 SUCCESS, some ⟨List.replicate 10 t, 10⟩) :=
      run_mt_replicate t 9 1 (by omega) (by simp [MAX_REQ])
    show run_mt none ((t, t) :: List.replicate 9 (t, t)) =
      some (SUCCESS :: List.replicate 9 SUCCESS, some ⟨List.replicate 10 t, 10⟩)
    rw [run_mt_from_none, h9]
  · have hdw : (⟨List.replicate MAX_REQ t, MAX_REQ⟩ : queue_t).entries.dropWhile
        (expired t) = List.replicate MAX_REQ t := dropWhile_replicate_self t MAX_REQ
    have h := check_mt_reject ⟨List.replicate MAX_REQ t, MAX_REQ⟩ t t 0 hwf10
      hge10
    rw [hdw] at h
    simpa [MAX_REQ] using h

theorem run_st_cons (q : Option queue_t) (t e : Int) (rest : List (Int × Int)) :
    run_st q ((t, e) :: rest) =
      match check_tenant_allowed q t e true true 0 with
      | none => none
      | some (c, q1) =>
        match run_st q1 rest with
        | none => none
        | some (cs, qf) => some (c :: cs, qf) := by
  rfl

theorem run_mt_cons (q : Option queue_t) (t e : Int) (rest : List (Int × Int)) :
    run_mt q ((t, e) :: rest) =
      match check_allowed q t e true true 0 with
      | none => none
      | some (c, q1) =>
        match run_mt q1 rest with
        | none => none
        | some (cs, qf) => some (c :: cs, qf) := by
  rfl

/-- C2: the eviction loop dequeues precisely the maximal prefix of head
entries with `now - head ≥ WINDOW_SIZE` (inclusive at the edge), and in the
concrete scenario a tenant that filled its quota of 10 at t=0 is rejected at
t=9999 and admitted at t=10000 by the single-threaded check; the mt check at
t=10000 instead evicts all ten entries and then dereferences the NULL tail
inside its unguarded `enqueue` (modelled as `none`) rather than admitting. -/
theorem c2_window_edge_inclusive :
    (∀ (t : Int) (l : List Int) (s : Nat),
      evict_loop t l s =
        (l.dropWhile (expired t), s - (l.takeWhile (expired t)).length)) ∧
    run_st none (List.replicate MAX_REQ ((0 : Int), (0 : Int))) =
      some (List.replicate MAX_REQ SUCCESS,
        some ⟨List.replicate MAX_REQ (0 : Int), MAX_REQ⟩) ∧
    check_tenant_allowed (some ⟨List.replicate MAX_REQ (0 : Int), MAX_REQ⟩)
        9999 9999 true true 0 =
      some (FAILURE, some ⟨List.replicate MAX_REQ (0 : Int), MAX_REQ⟩) ∧
    check_tenant_allowed (some ⟨List.replicate MAX_REQ (0 : Int), MAX_REQ⟩)
        10000 10000 true true 0 =
      some (SUCCESS, some ⟨[(10000 : Int)], 1⟩) ∧
    check_allowed (some ⟨List.replicate MAX_REQ (0 : Int), MAX_REQ⟩)
        10000 10000 true true 0 = none := by
  refine ⟨fun t l s => evict_loop_spec t l s, ?_, ?_, ?_, ?_⟩ <;> decide

/-- C3: a saturated tenant (MAX_REQ entries, none of them expired at `t`) is
rejected with the queue left exactly as it was, in both variants; and any
number of repetitions of the check at that same `t` keeps returning FAILURE
with the queue still unchanged. -/
theorem c3_idempotent_rejection (qq : queue_t) (t e : Int) (n : Nat)
    (hsz : qq.size = MAX_REQ) (hlen : qq.entries.length = MAX_REQ)
    (hfresh : ∀ x ∈ qq.entries, t - x < WINDOW_SIZE) :
    check_tenant_allowed (some qq) t e true true 0 = some (FAILURE, some qq) ∧
    check_allowed (some qq) t e true true 0 = some (FAILURE, some qq) ∧
    run_st (some qq) (List.replicate n (t, e)) =
      some (List.replicate n FAILURE, some qq) ∧
    run_mt (some qq) (List.replicate n (t, e)) =
      some (List.replicate n FAILURE, some qq) := by
  have hwf : wfq (some qq) := by
    show qq.size = qq.entries.length
    rw [hsz, hlen]
  have hdw : qq.entries.dropWhile (expired t) = qq.entries := by
    cases hq : qq.entries with
    | nil => rfl
    | cons d rest =>
      have hd : expired t d = false := by
        have hf := hfresh d (by rw [hq]; exact List.mem_cons_self d rest)
        simp only [WINDOW_SIZE] at hf
        simp only [expired, WINDOW_SIZE, decide_eq_false_iff_not, not_le]
        omega
      simp [List.dropWhile, hd]
  have hqeq : (⟨qq.entries.dropWhile (expired t),
      (qq.entries.dropWhile (expired t)).length⟩ : queue_t) = qq := by
    rw [hdw]
    cases qq with
    | mk es sz =>
      simp only at hlen hsz ⊢
      rw [hlen, hsz]
  have hge : MAX_REQ ≤ ((entriesq (some qq)).dropWhile (expired t)).length := by
    show MAX_REQ ≤ (qq.entries.dropWhile (expired t)).length
    rw [hdw, hlen]
  have hst : check_tenant_allowed (some qq) t e true true 0 =
      some (FAILURE, some qq) := by
    have h := check_st_reject (some qq) t e 0 hwf hge
    rw [show (entriesq (some qq)) = qq.entries from rfl] at h
    rw [h, hqeq]
  have hmt : check_allowed (some qq) t e true true 0 =
      some (FAILURE, some qq) := by
    have h := check_mt_reject qq t e 0 hwf hge
    rw [h, hqeq]
  refine ⟨hst, hmt, ?_, ?_⟩
  · induction n with
    | zero => simp [run_st]
    | succ m ih =>
      have hl : List.replicate (m + 1) (t, e) = (t, e) :: List.replicate m (t, e) :=
        List.replicate_succ _ _
      have hr : List.replicate (m + 1) FAILURE = FAILURE :: List.replicate m FAILURE :=
        List.replicate_succ _ _
      rw [hl, hr]
      simp only [run_st_cons, hst, ih]
  · induction n with
    | zero => simp [run_mt]
    | succ m ih =>
      have hl : List.replicate (m + 1) (t, e) = (t, e) :: List.replicate m (t, e) :=
        List.replicate_succ _ _
      have hr : List.replicate (m + 1) FAILURE = FAILURE :: List.replicate m FAILURE :=
        List.replicate_succ _ _
      rw [hl, hr]
      simp only [run_mt_cons, hmt, ih]

/-- Witness for C3 at a concrete saturated queue. -/
theorem c3_witness :
    check_tenant_allowed (some ⟨List.replicate MAX_REQ (0 : Int), MAX_REQ⟩)
        5 5 true true 0 =
      some (FAILURE, some ⟨List.replicate MAX_REQ (0 : Int), MAX_REQ⟩) ∧
    check_allowed (some ⟨List.replicate MAX_REQ (0 : Int), MAX_REQ⟩)
        5 5 true true 0 =
      some (FAILURE, some ⟨List.replicate MAX_REQ (0 : Int), MAX_REQ⟩) ∧
    run_st (some ⟨List.replicate MAX_REQ (0 : Int), MAX_REQ⟩)
        (List.replicate 3 ((5 : Int), (5 : Int))) =
      some (List.replicate 3 FAILURE,
        some ⟨List.replicate MAX_REQ (0 : Int), MAX_REQ⟩) ∧
    run_mt (some ⟨List.replicate MAX_REQ (0 : Int), MAX_REQ⟩)
        (List.replicate 3 ((5 : Int), (5 : Int))) =
      some (List.replicate 3 FAILURE,
        some ⟨List.replicate MAX_REQ (0 : Int), MAX_REQ⟩) :=
  c3_idempotent_rejection ⟨List.replicate MAX_REQ (0 : Int), MAX_REQ⟩ 5 5 3
    rfl (by decide) (by decide)

/-- C4: the single-threaded code handles "queue allocated with zero entries"
exactly like "no queue allocated": its `enqueue` size-0 branch installs the
node as head and tail, so an admitted request yields a well-formed queue
holding exactly the new entry, and the whole check gives the same result on
both representations.  The mt `enqueue`, by contrast, has no size-0 branch
and dereferences the NULL `tail` of an allocated empty queue (`none`). -/
theorem c4_empty_queue_handling (d t e : Int) (g : Nat) :
    enqueue true true g (some ⟨[], 0⟩) d = some (SUCCESS, some ⟨[d], 1⟩) ∧
    enqueue true true g none d = some (SUCCESS, some ⟨[d], 1⟩) ∧
    check_tenant_allowed (some ⟨[], 0⟩) t e true true g =
      check_tenant_allowed none t e true true g ∧
    check_tenant_allowed (some ⟨[], 0⟩) t e true true g =
      some (SUCCESS, some ⟨[e], 1⟩) ∧
    enqueue_mt true true g (some ⟨[], 0⟩) d = none := by
  exact ⟨rfl, rfl, rfl, rfl, rfl⟩

/-- C5: on admission the code stores the value of a second
`get_current_time_ms()` read (the `enq_time` parameter), not the `timestamp`
argument the eviction and capacity test used.  With argument 0 while the
clock reads 1 at the enqueue, the recorded tail entry is 1, not 0. -/
theorem c5_stored_timestamp_is_second_clock_read :
    check_tenant_allowed none 0 1 true true 0 =
      some (SUCCESS, some ⟨[1], 1⟩) ∧
    check_allowed none 0 1 true true 0 = some (SUCCESS, some ⟨[1], 1⟩) ∧
    some (SUCCESS, some (⟨[1], 1⟩ : queue_t)) ≠
      some (SUCCESS, some (⟨[0], 1⟩ : queue_t)) := by
  exact ⟨rfl, rfl, by decide⟩

/-- C6: allocation failure during an admission check that passed the
capacity test: `enqueue` returns FAILURE and records no entry (the queue is
left as eviction left it; a failed `initialize_queue` leaves either no queue
or an entryless queue with uninitialized size `g`), yet `check_tenant_allowed`
discards that code and still reports SUCCESS. -/
theorem c6_alloc_failure_silently_allowed (qq : queue_t) (t e d : Int)
    (g : Nat) (hwf : wfq (some qq))
    (hlt : (qq.entries.dropWhile (expired t)).length < MAX_REQ) :
    enqueue true false g (some qq) d = some (FAILURE, some qq) ∧
    (∀ b : Bool, enqueue false b g none d = some (FAILURE, none)) ∧
    enqueue true false g none d = some (FAILURE, some ⟨[], g⟩) ∧
    check_tenant_allowed (some qq) t e true false g =
      some (SUCCESS, some ⟨qq.entries.dropWhile (expired t),
        (qq.entries.dropWhile (expired t)).length⟩) ∧
    (∀ b : Bool, check_tenant_allowed none t e false b g =
      some (SUCCESS, none)) ∧
    check_tenant_allowed none t e true false g =
      some (SUCCESS, some ⟨[], g⟩) := by
  refine ⟨rfl, fun b => rfl, rfl, ?_, fun b => rfl, rfl⟩
  have hwf' : qq.size = qq.entries.length := hwf
  simp only [check_tenant_allowed]
  rw [evict_loop_wf t hwf']
  simp [hlt, enqueue]

/-- Witness for C6 at a concrete queue below the ceiling. -/
theorem c6_witness :
    enqueue true false 7 (some ⟨[3], 1⟩) 6 = some (FAILURE, some ⟨[3], 1⟩) ∧
    (∀ b : Bool, enqueue false b 7 none 6 = some (FAILURE, none)) ∧
    enqueue true false 7 none 6 = some (FAILURE, some ⟨[], 7⟩) ∧
    check_tenant_allowed (some ⟨[3], 1⟩) 4 5 true false 7 =
      some (SUCCESS, some ⟨([(3 : Int)]).dropWhile (expired 4),
        (([(3 : Int)]).dropWhile (expired 4)).length⟩) ∧
    (∀ b : Bool, check_tenant_allowed none 4 5 false b 7 =
      some (SUCCESS, none)) ∧
    check_tenant_allowed none 4 5 true false 7 =
      some (SUCCESS, some ⟨[], 7⟩) :=
  c6_alloc_failure_silently_allowed ⟨[3], 1⟩ 4 5 6 7 rfl (by decide)

/-- Queue states reachable from "no queue" through any sequence of the
rate-limiter.c queue operations (with allocation succeeding):
`initialize_queue`, `enqueue`, `dequeue`. -/
inductive Reach : Option queue_t → Prop where
  | start : Reach none
  | init (q : Option queue_t) (d : Int) (g : Nat) :
      Reach q → Reach (init_queue true true d g).2
  | enq (q : Option queue_t) (d : Int) (g : Nat) (r : Nat × Option queue_t) :
      Reach q → enqueue true true g q d = some r → Reach r.2
  | deq (q : Option queue_t) : Reach q → Reach (dequeue q).2

theorem reach_wf : ∀ q : Option queue_t, Reach q → wfq q := by
  intro q h
  induction h with
  | start => rfl
  | init q d g _ _ => rfl
  | enq q d g r _ henq ih =>
    match q with
    | none =>
      simp only [enqueue, Option.some.injEq] at henq
      rw [← henq]
      rfl
    | some qq =>
      have hwf : qq.size = qq.entries.length := ih
      by_cases hsz : qq.size = 0
      · have hlen : qq.entries.length = 0 := by omega
        have hent : qq.entries = [] := List.length_eq_zero.mp hlen
        simp only [enqueue, hsz, hent, if_true, ne_eq, not_true_eq_false,
          if_false, ite_true, Option.some.injEq] at henq
        rw [← henq]
        show (1 : Nat) = 1
        rfl
      · match hent : qq.entries with
        | [] =>
          rw [hwf, hent] at hsz
          simp at hsz
        | x :: xs =>
          simp only [enqueue, hsz, hent, if_true, ne_eq, not_false_eq_true,
            ite_true, Option.some.injEq] at henq
          rw [← henq]
          show qq.size + 1 = (x :: xs ++ [d]).length
          rw [hwf, hent]
          simp
  | deq q _ ih =>
    match q with
    | none => rfl
    | some qq =>
      have hwf : qq.size = qq.entries.length := ih
      match hent : qq.entries with
      | [] =>
        simp only [dequeue, hent]
        exact ih
      | x :: xs =>
        simp only [dequeue, hent]
        show qq.size - 1 = xs.length
        rw [hwf, hent]
        simp

theorem enqueue_delta (q : Option queue_t) (d : Int) (g : Nat) :
    ∀ r : Nat × Option queue_t, enqueue true true g q d = some r →
      r.1 = SUCCESS ∧ sizeq r.2 = sizeq q + 1 := by
  intro r henq
  match q with
  | none =>
    simp only [enqueue, Option.some.injEq] at henq
    rw [← henq]
    exact ⟨rfl, rfl⟩
  | some qq =>
    by_cases hsz : qq.size = 0
    · simp only [enqueue, hsz, ne_eq, not_true_eq_false, if_false, if_true,
        ite_true, Option.some.injEq] at henq
      rw [← henq]
      refine ⟨rfl, ?_⟩
      show 0 + 1 = qq.size + 1
      omega
    · match hent : qq.entries with
      | [] =>
        simp only [enqueue, hsz, hent, if_true, ne_eq, not_false_eq_true,
          ite_true] at henq
        exact Option.noConfusion henq
      | x :: xs =>
        simp only [enqueue, hsz, hent, if_true, ne_eq, not_false_eq_true,
          ite_true, Option.some.injEq] at henq
        rw [← henq]
        exact ⟨rfl, rfl⟩

/-- C7: on every reachable queue state the `size` field equals the number of
chained entries; a successful enqueue returns SUCCESS and increments the
size by exactly one, and a dequeue of a non-empty queue decrements it by
exactly one. -/
theorem c7_size_invariant (q : Option queue_t) (hq : Reach q) :
    (∀ qq : queue_t, q = some qq → qq.size = qq.entries.length) ∧
    (∀ (d : Int) (g : Nat) (r : Nat × Option queue_t),
      enqueue true true g q d = some r →
        r.1 = SUCCESS ∧ sizeq r.2 = sizeq q + 1) ∧
    (∀ qq : queue_t, q = some qq → qq.entries ≠ [] →
      sizeq (dequeue q).2 + 1 = sizeq q) := by
  have hwf := reach_wf q hq
  refine ⟨?_, fun d g r h => enqueue_delta q d g r h, ?_⟩
  · intro qq hqq
    rw [hqq] at hwf
    exact hwf
  · intro qq hqq hne
    subst hqq
    have hwf' : qq.size = qq.entries.length := hwf
    match hent : qq.entries with
    | [] => exact absurd hent hne
    | x :: xs =>
      simp only [dequeue, hent]
      show qq.size - 1 + 1 = qq.size
      rw [hwf', hent]
      simp

/-- Witness for C7 at the reachable state holding one entry. -/
theorem c7_witness :
    (⟨[(5 : Int)], 1⟩ : queue_t).size = [(5 : Int)].length ∧
    sizeq (dequeue (some ⟨[(5 : Int)], 1⟩)).2 + 1 =
      sizeq (some ⟨[(5 : Int)], 1⟩) := by
  have h := c7_size_invariant (some ⟨[(5 : Int)], 1⟩)
    (Reach.enq none 5 0 (SUCCESS, some ⟨[(5 : Int)], 1⟩) Reach.start rfl)
  exact ⟨h.1 _ rfl, h.2.2 _ rfl (by decide)⟩

/-- C9 counterexample: an admission check arriving at a tenant with no queue
yet mutates the tenant slot (creates the queue and records the entry) with
no lock ever acquired — the trace of the run from an absent queue contains a
mutation and no lock acquisition (it even unlocks the freshly created,
never-locked mutex at exit). -/
theorem c9_counterexample :
    check_allowed_ev none 0 0 =
      some (SUCCESS, some ⟨[0], 1⟩, [Ev.mutateEv, Ev.unlockEv]) ∧
    Ev.lockEv ∉ [Ev.mutateEv, Ev.unlockEv] := by
  exact ⟨rfl, by decide⟩

/-- C9, amended: when the tenant's queue already exists at entry, the mutex
is acquired before every queue-content read or mutation and released at
exit (the trace starts with the lock and ends with the unlock); but on the
path where no queue exists yet, the queue is read and mutated with no lock
held — the bootstrap gap the design notes acknowledge. -/
theorem c9_bootstrap_lock_gap :
    (∀ (qq : queue_t) (t e : Int) (res : Nat) (q' : Option queue_t)
        (tr : List Ev),
      check_allowed_ev (some qq) t e = some (res, q', tr) →
        tr.head? = some Ev.lockEv ∧ tr.getLast? = some Ev.unlockEv) ∧
    (∀ (t e : Int) (res : Nat) (q' : Option queue_t) (tr : List Ev),
      check_allowed_ev none t e = some (res, q', tr) →
        Ev.lockEv ∉ tr ∧ Ev.mutateEv ∈ tr) := by
  constructor
  · intro qq t e res q' tr hc
    simp only [check_allowed_ev] at hc
    by_cases hlt : (evict_loop_ev t qq.entries qq.size).2.1 < MAX_REQ
    · simp only [hlt, if_true, ite_true] at hc
      cases hev : (evict_loop_ev t qq.entries qq.size).1 with
      | nil =>
        rw [hev] at hc
        simp [enqueue_mt] at hc
      | cons x xs =>
        rw [hev] at hc
        simp only [enqueue_mt, if_true, ite_true] at hc
        simp only [Option.some.injEq, Prod.mk.injEq] at hc
        obtain ⟨-, -, htr⟩ := hc
        rw [← htr]
        constructor
        · rfl
        · have : (Ev.lockEv :: (evict_loop_ev t qq.entries qq.size).2.2 ++
              [Ev.readEv, Ev.mutateEv] ++
              (if (some (⟨(x :: xs) ++ [e],
                (evict_loop_ev t qq.entries qq.size).2.1 + 1⟩ : queue_t) :
                Option queue_t).isSome then [Ev.unlockEv] else [])) =
              (Ev.lockEv :: ((evict_loop_ev t qq.entries qq.size).2.2 ++
                [Ev.readEv, Ev.mutateEv])) ++ [Ev.unlockEv] := by
            simp [List.append_assoc]
          rw [this, List.getLast?_concat]
    · simp only [hlt, if_false, ite_false] at hc
      simp only [Option.some.injEq, Prod.mk.injEq] at hc
      obtain ⟨-, -, htr⟩ := hc
      rw [← htr]
      constructor
      · rfl
      · have : (Ev.lockEv :: (evict_loop_ev t qq.entries qq.size).2.2 ++
            [Ev.readEv, Ev.unlockEv]) =
            (Ev.lockEv :: ((evict_loop_ev t qq.entries qq.size).2.2 ++
              [Ev.readEv])) ++ [Ev.unlockEv] := by
          simp [List.append_assoc]
        rw [this, List.getLast?_concat]
  · intro t e res q' tr hc
    simp only [check_allowed_ev, enqueue_mt, init_queue, if_true, ite_true,
      Option.isSome_some] at hc
    simp only [Option.some.injEq, Prod.mk.injEq] at hc
    obtain ⟨-, -, htr⟩ := hc
    rw [← htr]
    exact ⟨by decide, by decide⟩

/-- Witness for the amended C9 on a concrete existing queue and on the
concrete bootstrap path. -/
theorem c9_bootstrap_lock_gap_witness :
    (([Ev.lockEv, Ev.readEv, Ev.readEv, Ev.mutateEv, Ev.unlockEv] :
        List Ev).head? = some Ev.lockEv ∧
      ([Ev.lockEv, Ev.readEv, Ev.readEv, Ev.mutateEv, Ev.unlockEv] :
        List Ev).getLast? = some Ev.unlockEv) ∧
    (Ev.lockEv ∉ ([Ev.mutateEv, Ev.unlockEv] : List Ev) ∧
      Ev.mutateEv ∈ ([Ev.mutateEv, Ev.unlockEv] : List Ev)) :=
  ⟨c9_bootstrap_lock_gap.1 ⟨[0], 1⟩ 3 3 SUCCESS (some ⟨[0, 3], 2⟩)
      [Ev.lockEv, Ev.readEv, Ev.readEv, Ev.mutateEv, Ev.unlockEv] rfl,
    c9_bootstrap_lock_gap.2 3 3 SUCCESS (some ⟨[3], 1⟩)
      [Ev.mutateEv, Ev.unlockEv] rfl⟩

theorem endBound_ge :
    ∀ (l : List (Int × Int)) (t0 : Int), timeOrdered t0 l →
      t0 ≤ endBound t0 l := by
  intro l
  induction l with
  | nil => intro t0 _; exact le_refl t0
  | cons p rest ih =>
    intro t0 hord
    obtain ⟨h01, h12, hrest⟩ := hord
    exact le_trans (le_trans h01 h12) (ih p.2 hrest)

theorem run_mt_append :
    ∀ (a b : List (Int × Int)) (q : Option queue_t),
      run_mt q (a ++ b) =
        match run_mt q a with
        | none => none
        | some (cs, q1) =>
          match run_mt q1 b with
          | none => none
          | some (cs2, q2) => some (cs ++ cs2, q2) := by
  intro a
  induction a with
  | nil =>
    intro b q
    cases hr : run_mt q b with
    | none => simp [run_mt, hr]
    | some r => cases r with | mk cs2 q2 => simp [run_mt, hr]
  | cons p rest ih =>
    intro b q
    cases p with
    | mk t e =>
      simp only [List.cons_append, run_mt]
      cases hc : check_allowed q t e true true 0 with
      | none => rfl
      | some r =>
        cases r with
        | mk c q1 =>
          simp only [List.append_eq]
          rw [ih]
          cases hr : run_mt q1 rest with
          | none => rfl
          | some r2 =>
            cases r2 with
            | mk cs qf =>
              simp only
              cases hr2 : run_mt qf b with
              | none => rfl
              | some r3 => cases r3 with | mk cs2 q2 => rfl

/-- C8: along any sequence of admission checks whose clock readings are
monotone (each `timestamp` argument at or after the previous reading, each
internal enqueue-time read at or after its `timestamp`), starting from an
absent queue: the single-threaded run always completes, the stored
timestamps are non-decreasing from head to tail, and the head timestamp
never decreases — the head observed after any prefix is a lower bound for
every entry (in particular every head) of every later state.  The same
holds for the mt variant: whenever an mt run completes, its entries are
sorted, the prefix run completed as well, and the head observed after the
prefix is a lower bound for every entry of the later state. -/
theorem c8_monotone_eviction (t0 : Int) (a b : List (Int × Int))
    (hord : timeOrdered t0 (a ++ b)) :
    (∃ (cs1 : List Nat) (q1 : Option queue_t) (cs2 : List Nat)
      (q2 : Option queue_t),
      run_st none a = some (cs1, q1) ∧
      run_st none (a ++ b) = some (cs2, q2) ∧
      (entriesq q2).Sorted (· ≤ ·) ∧
      (∀ h : Int, headq q1 = some h → ∀ x ∈ entriesq q2, h ≤ x)) ∧
    (∀ (cs2 : List Nat) (q2 : Option queue_t),
      run_mt none (a ++ b) = some (cs2, q2) →
        (entriesq q2).Sorted (· ≤ ·) ∧
        ∃ (cs1 : List Nat) (q1 : Option queue_t),
          run_mt none a = some (cs1, q1) ∧
          (∀ h : Int, headq q1 = some h → ∀ x ∈ entriesq q2, h ≤ x)) := by
  obtain ⟨horda, hordb⟩ := (timeOrdered_append a b t0).mp hord
  have hwf0 : wfq none := rfl
  have hs0 : sortedq none := List.sorted_nil
  have hb0 : le_allq none t0 := by intro x hx; simp [entriesq] at hx
  have hg0 : ge_allq t0 none := by intro x hx; simp [entriesq] at hx
  have ht0e : t0 ≤ endBound t0 a := endBound_ge a t0 horda
  constructor
  · obtain ⟨cs1, q1, hrun1, hwf1, hs1, hb1, hg1⟩ :=
      run_st_inv a t0 none t0 horda hwf0 hs0 hb0 hg0 (le_refl t0)
    obtain ⟨cs2, q2, hrun2, -, hs2, -, -⟩ :=
      run_st_inv b (endBound t0 a) q1 t0 hordb hwf1 hs1 hb1 hg1 ht0e
    have hrunab : run_st none (a ++ b) = some (cs1 ++ cs2, q2) := by
      rw [run_st_append]
      simp only [hrun1, hrun2]
    refine ⟨cs1, q1, cs1 ++ cs2, q2, hrun1, hrunab, hs2, ?_⟩
    intro h hhead x hx
    have hmem : h ∈ entriesq q1 :=
      List.mem_of_mem_head? (Option.mem_def.mpr hhead)
    have hge1 : ge_allq h q1 := sorted_head_le hs1 hhead
    have hle : h ≤ endBound t0 a := hb1 h hmem
    obtain ⟨cs2h, q2h, hrun2h, -, -, -, hg2⟩ :=
      run_st_inv b (endBound t0 a) q1 h hordb hwf1 hs1 hb1 hge1 hle
    rw [hrun2] at hrun2h
    simp only [Option.some.injEq, Prod.mk.injEq] at hrun2h
    exact hg2 x (hrun2h.2 ▸ hx)
  · intro cs2 q2 hrunab
    rw [run_mt_append] at hrunab
    cases hra : run_mt none a with
    | none => rw [hra] at hrunab; exact absurd hrunab (by simp)
    | some r1 =>
      cases r1 with
      | mk cs1 q1 =>
        rw [hra] at hrunab
        simp only at hrunab
        cases hrb : run_mt q1 b with
        | none => rw [hrb] at hrunab; exact absurd hrunab (by simp)
        | some r2 =>
          cases r2 with
          | mk cs2b q2b =>
            rw [hrb] at hrunab
            simp only [Option.some.injEq, Prod.mk.injEq] at hrunab
            obtain ⟨-, rfl⟩ := hrunab
            obtain ⟨hwf1, hs1, hb1, hg1⟩ :=
              run_mt_inv a t0 none t0 horda hwf0 hs0 hb0 hg0 (le_refl t0)
                cs1 q1 hra
            obtain ⟨-, hs2, -, -⟩ :=
              run_mt_inv b (endBound t0 a) q1 t0 hordb hwf1 hs1 hb1 hg1 ht0e
                cs2b q2b hrb
            refine ⟨hs2, cs1, q1, rfl, ?_⟩
            intro h hhead x hx
            have hmem : h ∈ entriesq q1 :=
              List.mem_of_mem_head? (Option.mem_def.mpr hhead)
            have hge1 : ge_allq h q1 := sorted_head_le hs1 hhead
            have hle : h ≤ endBound t0 a := hb1 h hmem
            obtain ⟨-, -, -, hg2⟩ :=
              run_mt_inv b (endBound t0 a) q1 h hordb hwf1 hs1 hb1 hge1 hle
                cs2b q2b hrb
            exact hg2 x hx

/-- Witness for C8 on the concrete monotone sequence 1, 2 of instants, with
the mt conjunct instantiated at its concrete completed run. -/
theorem c8_witness :
    (∃ (cs1 : List Nat) (q1 : Option queue_t) (cs2 : List Nat)
      (q2 : Option queue_t),
      run_st none [((1 : Int), (1 : Int))] = some (cs1, q1) ∧
      run_st none ([((1 : Int), (1 : Int))] ++ [((2 : Int), (2 : Int))]) =
        some (cs2, q2) ∧
      (entriesq q2).Sorted (· ≤ ·) ∧
      (∀ h : Int, headq q1 = some h → ∀ x ∈ entriesq q2, h ≤ x)) ∧
    ((entriesq (some ⟨[(1 : Int), (2 : Int)], 2⟩)).Sorted (· ≤ ·) ∧
      ∃ (cs1 : List Nat) (q1 : Option queue_t),
        run_mt none [((1 : Int), (1 : Int))] = some (cs1, q1) ∧
        (∀ h : Int, headq q1 = some h →
          ∀ x ∈ entriesq (some ⟨[(1 : Int), (2 : Int)], 2⟩), h ≤ x)) :=
  ⟨(c8_monotone_eviction 0 [((1 : Int), (1 : Int))] [((2 : Int), (2 : Int))]
      ⟨by norm_num, by norm_num, by norm_num, by norm_num, trivial⟩).1,
    (c8_monotone_eviction 0 [((1 : Int), (1 : Int))] [((2 : Int), (2 : Int))]
      ⟨by norm_num, by norm_num, by norm_num, by norm_num, trivial⟩).2
      [SUCCESS, SUCCESS] (some ⟨[(1 : Int), (2 : Int)], 2⟩) rfl⟩

/-- C10: from an absent queue, with allocation always succeeding and no
constraint at all on the clock readings, every single-threaded run completes
with a well-formed queue of size at most MAX_REQ (instantiating the sequence
at each prefix bounds the size after every call); every completed mt run is
bounded the same way; eviction never increases the size field; and when the
post-eviction queue is at the ceiling the check appends nothing, returning
the evicted queue unchanged. -/
theorem c10_per_tenant_memory_bounded (ts : List (Int × Int)) :
    (∃ (cs : List Nat) (q' : Option queue_t),
      run_st none ts = some (cs, q') ∧ wfq q' ∧ sizeq q' ≤ MAX_REQ) ∧
    (∀ (cs : List Nat) (q' : Option queue_t),
      run_mt none ts = some (cs, q') → wfq q' ∧ sizeq q' ≤ MAX_REQ) ∧
    (∀ (t : Int) (l : List Int) (s : Nat), (evict_loop t l s).2 ≤ s) ∧
    (∀ (q : Option queue_t) (t e : Int) (g : Nat), wfq q →
      MAX_REQ ≤ ((entriesq q).dropWhile (expired t)).length →
      check_tenant_allowed q t e true true g =
        some (FAILURE, some ⟨(entriesq q).dropWhile (expired t),
          ((entriesq q).dropWhile (expired t)).length⟩)) := by
  refine ⟨?_, ?_, ?_, ?_⟩
  · exact run_st_bound ts none rfl (by simp [sizeq, MAX_REQ])
  · exact fun cs q' h =>
      run_mt_bound ts none rfl (by simp [sizeq, MAX_REQ]) cs q' h
  · intro t l s
    rw [evict_loop_spec]
    exact Nat.sub_le _ _
  · exact fun q t e g hwf hge => check_st_reject q t e g hwf hge

/-- Witness for C10 on the concrete one-call sequence. -/
theorem c10_witness :
    (∃ (cs : List Nat) (q' : Option queue_t),
      run_st none [((0 : Int), (0 : Int))] = some (cs, q') ∧ wfq q' ∧
        sizeq q' ≤ MAX_REQ) ∧
    (wfq (some ⟨[(0 : Int)], 1⟩) ∧ sizeq (some ⟨[(0 : Int)], 1⟩) ≤ MAX_REQ) :=
  ⟨(c10_per_tenant_memory_bounded [((0 : Int), (0 : Int))]).1,
    (c10_per_tenant_memory_bounded [((0 : Int), (0 : Int))]).2.1 [SUCCESS]
      (some ⟨[(0 : Int)], 1⟩) rfl⟩
